import Mathlib

/-!
Verification of `hypothesis/extra/django/_impl.py`: the adapter that builds
Hypothesis strategies for Django model instances (`from_model`) and Django
form submissions (`from_form`).

Shallow embedding conventions:

* Python exceptions are the inductive `Exc`.  A Hypothesis rejection
  (`reject()` raising `UnsatisfiedAssumption`, which the engine treats as
  "discard this example and resample") is *not* an `Exc`: it is the
  distinguished outcome `DrawResult.rejected`.
* Drawing one example from a strategy is a function `Nat → DrawResult α`
  (the `Nat` indexes the engine's choice of random input); the engine's
  outer loop over successive inputs is `engineRun`.
* Python dicts are association lists `List (String × β)` with insertion
  order; `dictSet` replaces in place (keeping the position) when the key is
  present and appends otherwise, exactly like CPython dict assignment.
  `sortByKey` models `sorted(d.items())` (keys are distinct in every dict
  the source builds, so comparison of the value component never happens).
* Values passed as keyword arguments are `PyVal`: either an instance of
  `SearchStrategy` (constructor `strat`, carrying the symbolic strategy
  expression), the `infer` sentinel of `hypothesis.utils.conventions`
  (constructor `inferSent`; in the library `infer` is an `InferType`
  object and not a `SearchStrategy` instance), or any other Python object
  (constructor `other`).
* `from_field` (defined in `hypothesis/extra/django/_fields.py`, outside
  this file) is treated symbolically: applying it to a field yields the
  strategy expression `StratExpr.fromField f` / `StratExpr.fromFormField f`.
-/

/-- Python exception kinds relevant to `_impl.py`.  `integrityError` is
`django.db.IntegrityError`, `validationError` is
`django.core.exceptions.ValidationError`, `invalidArgument` is
`hypothesis.errors.InvalidArgument`, `keyError` is the `KeyError` from
`fields_by_name[name]`, `fieldDoesNotExist` is the error raised by
`model._meta.get_field` on an unknown name, `otherExc` is any other
exception. -/
inductive Exc where
  | integrityError
  | validationError
  | invalidArgument
  | keyError
  | fieldDoesNotExist
  | otherExc (n : Nat)
deriving DecidableEq, Repr

/-- Outcome of drawing one example from a strategy: a value, a raised
exception, or a Hypothesis rejection (the engine discards the example and
resamples). -/
inductive DrawResult (α : Type) where
  | ok (a : α)
  | raised (e : Exc)
  | rejected
deriving DecidableEq, Repr

/-- Draw semantics of a strategy: the result of drawing at each engine
input. -/
abbrev Draws (α : Type) : Type := Nat → DrawResult α

/-- Embedding of `_models_impl` (lines 123-129): draw a `(object, created)`
pair from the inner strategy and return its first component; an
`IntegrityError` raised by the draw is turned into `reject()`, i.e. a
rejection; any other exception propagates, and an inner rejection
propagates as a rejection. -/
def models_impl {α : Type} (inner : Draws (α × Bool)) : Draws α := fun n =>
  match inner n with
  | .ok p => .ok p.1
  | .raised .integrityError => .rejected
  | .raised e => .raised e
  | .rejected => .rejected

/-- Embedding of `_forms_impl` (lines 228-234): draw a form instance from
the inner strategy and return it; a `ValidationError` raised by the draw is
turned into `reject()`, i.e. a rejection; any other exception propagates. -/
def forms_impl {α : Type} (inner : Draws α) : Draws α := fun n =>
  match inner n with
  | .ok v => .ok v
  | .raised .validationError => .rejected
  | .raised e => .raised e
  | .rejected => .rejected

/-- The Hypothesis engine's outer loop over a list of inputs: a rejected
example is discarded and the next input is tried (resampling); a value or a
raised exception stops the run. -/
def engineRun {α : Type} (s : Draws α) : List Nat → Option (Except Exc α)
  | [] => none
  | n :: rest =>
    match s n with
    | .ok a => some (.ok a)
    | .raised e => some (.error e)
    | .rejected => engineRun s rest

/-- A concrete field of a Django model, as consulted by `from_model`:
its name, whether it is auto-created, whether its `default` attribute is
something other than `NOT_PROVIDED` (`has_default`), and whether it is the
model's primary key. -/
structure MField where
  name : String
  auto_created : Bool
  has_default : Bool
  primary_key : Bool
deriving DecidableEq, Repr

/-- A field of an instantiated Django form, as consulted by `from_form`:
an identifier and the `disabled` flag. -/
structure FormField where
  fid : Nat
  disabled : Bool
deriving DecidableEq, Repr

/-- Symbolic strategy expressions: the result of applying `from_field` to a
model field or to a form field, or a strategy object supplied by the
caller (identified by a number). -/
inductive StratExpr where
  | fromField (f : MField)
  | fromFormField (f : FormField)
  | userStrat (n : Nat)
deriving DecidableEq, Repr

/-- A Python value passed as a keyword argument: an instance of
`SearchStrategy`, the `infer` sentinel (which is an `InferType` object,
not a `SearchStrategy` instance), or any other object. -/
inductive PyVal where
  | strat (s : StratExpr)
  | inferSent
  | otherVal (n : Nat)
deriving DecidableEq, Repr

/-- `isinstance(v, SearchStrategy)`. -/
def isSearchStrategy : PyVal → Bool
  | .strat _ => true
  | _ => false

/-- Decidable equality for results carried in `Except`. -/
instance {ε α : Type} [DecidableEq ε] [DecidableEq α] : DecidableEq (Except ε α) := fun x y =>
  match x, y with
  | .ok u, .ok v =>
    if h : u = v then .isTrue (by rw [h])
    else .isFalse (fun hc => h (Except.ok.inj hc))
  | .error u, .error v =>
    if h : u = v then .isTrue (by rw [h])
    else .isFalse (fun hc => h (Except.error.inj hc))
  | .ok _, .error _ => .isFalse (fun hc => Except.noConfusion hc)
  | .error _, .ok _ => .isFalse (fun hc => Except.noConfusion hc)

/-- First binding of a key in a dict (Python `d[k]` as an `Option`). -/
def dictGet {β : Type} : List (String × β) → String → Option β
  | [], _ => none
  | (k', v) :: rest, k => if k' = k then some v else dictGet rest k

/-- Python `k in d`. -/
def dictHas {β : Type} (d : List (String × β)) (k : String) : Bool :=
  (dictGet d k).isSome

/-- Python `d[k] = v`: replace the value in place (keeping the key's
position) when the key is present, append otherwise. -/
def dictSet {β : Type} : List (String × β) → String → β → List (String × β)
  | [], k, v => [(k, v)]
  | (k', v') :: rest, k, v =>
    if k' = k then (k, v) :: rest else (k', v') :: dictSet rest k v

/-- Python `d.pop(k)`, restricted to the removal effect (the source only
pops keys it is iterating over, so the key is always present). -/
def dictPop {β : Type} : List (String × β) → String → List (String × β)
  | [], _ => []
  | (k', v') :: rest, k => if k' = k then rest else (k', v') :: dictPop rest k

/-- Lexicographic comparison of code-point lists: the order Python's
`sorted` uses on strings. -/
def charListLt : List Char → List Char → Bool
  | [], [] => false
  | [], _ :: _ => true
  | _ :: _, [] => false
  | a :: as, b :: bs =>
    if a.toNat < b.toNat then true
    else if b.toNat < a.toNat then false
    else charListLt as bs

/-- Python string comparison `a < b` (lexicographic on code points). -/
def strLt (a b : String) : Bool := charListLt a.data b.data

/-- Insert a pair into a list sorted by key (used to model
`sorted(d.items())`; all dicts in the source have distinct keys, so
comparison never reaches the value component). -/
def insertByKey {β : Type} (p : String × β) : List (String × β) → List (String × β)
  | [] => [p]
  | q :: qs => if strLt p.1 q.1 then p :: q :: qs else q :: insertByKey p qs

/-- Python `sorted(d.items())` on a dict with distinct keys. -/
def sortByKey {β : Type} (l : List (String × β)) : List (String × β) :=
  l.foldr insertByKey []

/-- A Django model class as consulted by `from_model`: whether it is a
subclass of `django.db.models.Model`, and its `_meta.concrete_fields`. -/
structure ModelClass where
  is_model_subclass : Bool
  concrete_fields : List MField
deriving DecidableEq, Repr

/-- Line 96: `fields_by_name = {f.name: f for f in model._meta.concrete_fields}`. -/
def fieldsByName (m : ModelClass) : List (String × MField) :=
  m.concrete_fields.foldl (fun d f => dictSet d f.name f) []

/-- `model._meta.get_field(name)`, restricted to the concrete fields our
model carries. -/
def getField (m : ModelClass) (name : String) : Option MField :=
  dictGet (fieldsByName m) name

/-- The first loop of `from_model` / `from_form` (lines 97-99 / 201-203):
iterate over a `sorted(...)` snapshot of the field-strategy dict and
replace each value that *is* the `infer` sentinel by `from_field` of the
field of that name (`fieldF`), raising `KeyError` when the name is not a
field.  The first component threads the dict; the second logs, in order,
the `(name, field)` pairs `from_field` was applied to. -/
def resolveInfers {φ : Type} (fieldF : φ → PyVal) (fbn : List (String × φ)) :
    List (String × PyVal) → List (String × PyVal) →
    Except Exc (List (String × PyVal)) × List (String × φ)
  | [], fs => (.ok fs, [])
  | (name, v) :: rest, fs =>
    if v = PyVal.inferSent then
      match dictGet fbn name with
      | none => (.error .keyError, [])
      | some f =>
        let r := resolveInfers fieldF fbn rest (dictSet fs name (fieldF f))
        (r.1, (name, f) :: r.2)
    else
      resolveInfers fieldF fbn rest fs

/-- The second loop of `from_model` / `from_form` (lines 100-106 /
204-209): iterate over `sorted(fields_by_name.items())` and, for each name
not in the field-strategy dict whose field passes `eligible`, add
`from_field(field)` under that name.  Threads the dict and logs the
`(name, field)` pairs `from_field` was applied to. -/
def inferMissing {φ : Type} (fieldF : φ → PyVal) (eligible : φ → Bool) :
    List (String × φ) → List (String × PyVal) →
    List (String × PyVal) × List (String × φ)
  | [], fs => (fs, [])
  | (name, f) :: rest, fs =>
    if !dictHas fs name && eligible f then
      let r := inferMissing fieldF eligible rest (dictSet fs name (fieldF f))
      (r.1, (name, f) :: r.2)
    else
      inferMissing fieldF eligible rest fs

/-- `from_field` applied to a model field (symbolic). -/
def fromFieldModel (f : MField) : PyVal := .strat (.fromField f)

/-- Eligibility test of the second `from_model` loop (lines 103-104):
`not field.auto_created and field.default is dm.fields.NOT_PROVIDED`. -/
def modelEligible (f : MField) : Bool := !f.auto_created && !f.has_default

/-- Description of the strategy `from_model` builds before wrapping it in
`_models_impl`: either
`st.builds(model.objects.update_or_create, pk=pkStrat, defaults=st.fixed_dictionaries(defaults))`
or `st.builds(model.objects.get_or_create, **kvs)`. -/
inductive ModelStrategyDesc where
  | updateOrCreate (pk : String) (pkStrat : PyVal) (defaults : List (String × PyVal))
  | getOrCreate (kvs : List (String × PyVal))
deriving DecidableEq, Repr

/-- The third loop of `from_model` (lines 108-120): walk the keys of the
field-strategy dict in insertion order; at the first key whose field is the
primary key, pop it and build `update_or_create` keyed on it with the
remaining strategies as `defaults`; if no key's field is a primary key,
build `get_or_create` over the whole dict.  `get_field` on a name that is
not a field raises `FieldDoesNotExist`. -/
def pkSearch (fbn : List (String × MField)) (full : List (String × PyVal)) :
    List (String × PyVal) → Except Exc ModelStrategyDesc
  | [] => .ok (.getOrCreate full)
  | (name, v) :: rest =>
    match dictGet fbn name with
    | none => .error .fieldDoesNotExist
    | some f =>
      if f.primary_key then .ok (.updateOrCreate name v (dictPop full name))
      else pkSearch fbn full rest

/-- Lines 96-106 of `from_model`: the field-strategy dict after the
`infer`-resolution loop and the missing-field inference loop, together
with the log of `from_field` applications. -/
def resolvedFieldStrategies (m : ModelClass) (fs : List (String × PyVal)) :
    Except Exc (List (String × PyVal)) × List (String × MField) :=
  let fbn := fieldsByName m
  match resolveInfers fromFieldModel fbn (sortByKey fs) fs with
  | (.error e, log) => (.error e, log)
  | (.ok fs1, log1) =>
    let r := inferMissing fromFieldModel modelEligible (sortByKey fbn) fs1
    (.ok r.1, log1 ++ r.2)

/-- Embedding of `from_model` (lines 63-120): reject a non-`Model`
argument with `InvalidArgument`, resolve the field strategies, then build
the update-or-create / get-or-create strategy.  The second component logs
every `(name, field)` pair `from_field` was applied to. -/
def from_model_run (m : ModelClass) (field_strategies : List (String × PyVal)) :
    Except Exc ModelStrategyDesc × List (String × MField) :=
  if ¬ m.is_model_subclass then (.error .invalidArgument, [])
  else
    match resolvedFieldStrategies m field_strategies with
    | (.error e, log) => (.error e, log)
    | (.ok fs2, log) => (pkSearch (fieldsByName m) fs2 fs2, log)

/-- The result of `from_model` (the strategy wrapped by `_models_impl`, or
the exception raised). -/
def from_model_result (m : ModelClass) (field_strategies : List (String × PyVal)) :
    Except Exc ModelStrategyDesc :=
  (from_model_run m field_strategies).1

/-- `model._meta.get_field(k).primary_key` as a total test (false when the
name is not a field; `pkSearch` raises in that case before consulting the
flag). -/
def isPkField (m : ModelClass) (k : String) : Bool :=
  match getField m k with
  | some f => f.primary_key
  | none => false

/-- `from_field` applied to a form field (symbolic). -/
def fromFieldForm (f : FormField) : PyVal := .strat (.fromFormField f)

/-- Eligibility test of the second `from_form` loop (lines 205-208):
`name not in field_strategies and not field.disabled` (the name check
lives in `inferMissing`). -/
def formEligible (f : FormField) : Bool := !f.disabled

/-- A Django form class as consulted by `from_form`: whether it is a
subclass of `django.forms.BaseForm`, and the fields of an instance, which
may depend on the constructor keyword arguments (`blank_form.fields` after
`blank_form = form(**form_kwargs)`; forms may have different fields
per-instance). -/
structure FormClass where
  is_form_subclass : Bool
  fields : List (String × PyVal) → List (String × FormField)

/-- Description of the strategy `from_form` builds before wrapping it in
`_forms_impl`: `st.builds(_form, **field_strategies)` where `_form` is the
`_FormWrap` subclass carrying `wraps = form` and `form_kwargs`. -/
structure FormStrategyDesc where
  wraps : FormClass
  form_kwargs : List (String × PyVal)
  field_strategies : List (String × PyVal)

/-- Lines 190-197 of `from_form`: split the keyword arguments into the
field strategies (values that are `SearchStrategy` instances) and the form
constructor keyword arguments (every other value), preserving order. -/
def splitKwargs : List (String × PyVal) → List (String × PyVal) × List (String × PyVal)
  | [] => ([], [])
  | (k, v) :: rest =>
    let r := splitKwargs rest
    if isSearchStrategy v then ((k, v) :: r.1, r.2) else (r.1, (k, v) :: r.2)

/-- Embedding of `from_form` (lines 155-225): reject a non-`BaseForm`
argument with `InvalidArgument`, split the keyword arguments, read the
fields off the instantiated blank form, resolve `infer` values, infer
strategies for the remaining non-disabled fields, and build the wrapped
form strategy.  The second component logs every `(name, field)` pair
`from_field` was applied to. -/
def from_form_run (form : FormClass) (kwargs : List (String × PyVal)) :
    Except Exc FormStrategyDesc × List (String × FormField) :=
  if ¬ form.is_form_subclass then (.error .invalidArgument, [])
  else
    let parts := splitKwargs kwargs
    let fbn := form.fields parts.2
    match resolveInfers fromFieldForm fbn (sortByKey parts.1) parts.1 with
    | (.error e, log) => (.error e, log)
    | (.ok fs1, log1) =>
      let r := inferMissing fromFieldForm formEligible (sortByKey fbn) fs1
      (.ok { wraps := form, form_kwargs := parts.2, field_strategies := r.1 }, log1 ++ r.2)

/-- The result of `from_form` (the strategy wrapped by `_forms_impl`, or
the exception raised). -/
def from_form_result (form : FormClass) (kwargs : List (String × PyVal)) :
    Except Exc FormStrategyDesc :=
  (from_form_run form kwargs).1

/-- A keyword argument of a form constructor call: either the generated
data dictionary or a plain forwarded value. -/
inductive CtorArg (α : Type) where
  | dataDict (kvs : List (String × α))
  | plain (v : PyVal)

/-- A call of the wrapped form constructor: the form class called and its
keyword arguments. -/
structure FormCtorCall (α : Type) where
  callee : FormClass
  ctorKwargs : List (String × CtorArg α)

/-- Embedding of `_FormWrap.__new__` (lines 149-152):
`self.wraps(data=kwargs, **self.form_kwargs)` - the drawn keyword
arguments are passed as the single `data` argument, and the stored
`form_kwargs` are spread as further keyword arguments. -/
def formWrap_new {α : Type} (wraps : FormClass) (form_kwargs : List (String × PyVal))
    (kwargs : List (String × α)) : FormCtorCall α :=
  { callee := wraps,
    ctorKwargs := ("data", .dataDict kwargs) ::
      form_kwargs.map (fun p => (p.1, .plain p.2)) }

/-- Drawing one example from the `st.builds(_form, **field_strategies)`
strategy of `from_form`, given the value `val name` drawn for each field
strategy: `builds` draws every keyword strategy and calls the wrapped
class with the results. -/
def drawFormBuilds {α : Type} (d : FormStrategyDesc) (val : String → α) : FormCtorCall α :=
  formWrap_new d.wraps d.form_kwargs (d.field_strategies.map (fun p => (p.1, val p.1)))

/-- The module-level mutable state of `_impl.py`.  No statement of
`from_model` or `from_form` reads or writes any module-level mutable
binding: the module globals they touch (`dm`, `df`, `st`, `from_field`,
`infer`, `_FormWrap`, the exception classes) are only read and never
assigned, and `from_form` builds a *new* `_FormWrap` subclass per call
instead of mutating `_FormWrap.form_kwargs`.  The state is therefore
threaded through unchanged. -/
structure ModuleState where
  bindings : List (String × PyVal)
deriving DecidableEq

/-- `from_model` as a call against the module state: the result depends
only on the arguments and the state passes through unchanged. -/
def from_model_call (σ : ModuleState) (m : ModelClass) (fs : List (String × PyVal)) :
    (Except Exc ModelStrategyDesc × List (String × MField)) × ModuleState :=
  (from_model_run m fs, σ)

/-- `from_form` as a call against the module state: the result depends
only on the arguments and the state passes through unchanged. -/
def from_form_call (σ : ModuleState) (form : FormClass) (kwargs : List (String × PyVal)) :
    (Except Exc FormStrategyDesc × List (String × FormField)) × ModuleState :=
  (from_form_run form kwargs, σ)
/-- C1: if drawing from the inner strategy of a `from_model` strategy raises
`IntegrityError`, `_models_impl` turns the draw into a rejection, and the
engine resamples (continues with the remaining inputs) instead of the error
propagating as a test failure; likewise `_forms_impl` turns a
`ValidationError` into a rejection that the engine resamples. -/
theorem C1_rejection_wrapping {α β : Type} (innerM : Draws (α × Bool)) (innerF : Draws β)
    (n : Nat) (rest : List Nat)
    (hM : innerM n = .raised .integrityError)
    (hF : innerF n = .raised .validationError) :
    models_impl innerM n = .rejected ∧
    engineRun (models_impl innerM) (n :: rest) = engineRun (models_impl innerM) rest ∧
    forms_impl innerF n = .rejected ∧
    engineRun (forms_impl innerF) (n :: rest) = engineRun (forms_impl innerF) rest := by
  have h1 : models_impl innerM n = .rejected := by
    simp [models_impl, hM]
  have h2 : forms_impl innerF n = .rejected := by
    simp [forms_impl, hF]
  refine ⟨h1, ?_, h2, ?_⟩
  · simp [engineRun, h1]
  · simp [engineRun, h2]

/-- Witness for C1 at a concrete inner strategy that raises the caught
exception kind at input 0. -/
theorem C1_rejection_wrapping_witness :
    models_impl (fun _ => (.raised .integrityError : DrawResult (Nat × Bool))) 0 = .rejected ∧
    engineRun (models_impl (fun _ => (.raised .integrityError : DrawResult (Nat × Bool)))) [0, 1] =
      engineRun (models_impl (fun _ => (.raised .integrityError : DrawResult (Nat × Bool)))) [1] ∧
    forms_impl (fun _ => (.raised .validationError : DrawResult Nat)) 0 = .rejected ∧
    engineRun (forms_impl (fun _ => (.raised .validationError : DrawResult Nat))) [0, 1] =
      engineRun (forms_impl (fun _ => (.raised .validationError : DrawResult Nat))) [1] :=
  C1_rejection_wrapping (fun _ => (.raised .integrityError : DrawResult (Nat × Bool)))
    (fun _ => (.raised .validationError : DrawResult Nat)) 0 [1] rfl rfl

/-- C6 as stated is false: `_models_impl` catches only `IntegrityError`, so
a `ValidationError` raised while drawing (for instance by a model whose
`save` method validates) propagates to the caller; symmetrically
`_forms_impl` propagates an `IntegrityError`.  Hence it is not the case
that a strategy built by either wrapper never raises either of the two
caught exception kinds. -/
theorem C6_counterexample :
    ¬ (∀ (innerM : Draws (Nat × Bool)) (innerF : Draws Nat) (n : Nat),
        models_impl innerM n ≠ .raised .validationError ∧
        forms_impl innerF n ≠ .raised .integrityError) := by
  intro h
  have := (h (fun _ => .raised .validationError) (fun _ => .raised .integrityError) 0).1
  exact this rfl

/-- C6 amended: each wrapper never lets its own caught exception kind reach
the caller: a strategy built by `_models_impl` never raises
`IntegrityError` when drawing, and a strategy built by `_forms_impl` never
raises `ValidationError`; the engine run over any input list therefore
never stops with that exception either. -/
theorem C6_caught_kind_never_raised {α β : Type} (innerM : Draws (α × Bool)) (innerF : Draws β)
    (n : Nat) (inputs : List Nat) :
    models_impl innerM n ≠ .raised .integrityError ∧
    forms_impl innerF n ≠ .raised .validationError ∧
    engineRun (models_impl innerM) inputs ≠ some (.error .integrityError) ∧
    engineRun (forms_impl innerF) inputs ≠ some (.error .validationError) := by
  have hm : ∀ m : Nat, models_impl innerM m ≠ .raised .integrityError := by
    intro m
    unfold models_impl
    rcases hx : innerM m with a | e | _
    · simp
    · cases e <;> simp
    · simp
  have hf : ∀ m : Nat, forms_impl innerF m ≠ .raised .validationError := by
    intro m
    unfold forms_impl
    rcases hx : innerF m with a | e | _
    · simp
    · cases e <;> simp
    · simp
  refine ⟨hm n, hf n, ?_, ?_⟩
  · induction inputs with
    | nil => simp [engineRun]
    | cons x rest ih =>
      unfold engineRun
      rcases hx : models_impl innerM x with a | e | _
      · simp
      · have : e ≠ Exc.integrityError := by
          intro he
          exact hm x (he ▸ hx)
        simp [this]
      · exact ih
  · induction inputs with
    | nil => simp [engineRun]
    | cons x rest ih =>
      unfold engineRun
      rcases hx : forms_impl innerF x with a | e | _
      · simp
      · have : e ≠ Exc.validationError := by
          intro he
          exact hf x (he ▸ hx)
        simp [this]
      · exact ih

/-- C9: when the inner draw of a `from_model` strategy succeeds with a pair
`(object, created)`, the value produced by the strategy is the object, the
first component, with the created flag discarded. -/
theorem C9_first_component {α : Type} (inner : Draws (α × Bool)) (n : Nat) (p : α × Bool)
    (h : inner n = .ok p) :
    models_impl inner n = .ok p.1 := by
  simp [models_impl, h]

/-- Witness for C9 at a concrete inner strategy producing `(7, true)`. -/
theorem C9_first_component_witness :
    models_impl (fun _ => (.ok (7, true) : DrawResult (Nat × Bool))) 0 = .ok 7 :=
  C9_first_component (fun _ => (.ok (7, true) : DrawResult (Nat × Bool))) 0 (7, true) rfl


theorem dictGet_set_self {β : Type} (d : List (String × β)) (k : String) (v : β) :
    dictGet (dictSet d k v) k = some v := by
  induction d with
  | nil => simp [dictSet, dictGet]
  | cons p rest ih =>
    obtain ⟨k', v'⟩ := p
    by_cases h : k' = k
    · simp [dictSet, h, dictGet]
    · simp [dictSet, h, dictGet, ih]

theorem dictGet_set_ne {β : Type} (d : List (String × β)) (k k' : String) (v : β)
    (h : k' ≠ k) : dictGet (dictSet d k v) k' = dictGet d k' := by
  induction d with
  | nil => simp [dictSet, dictGet, Ne.symm h]
  | cons p rest ih =>
    obtain ⟨ka, va⟩ := p
    by_cases hka : ka = k
    · subst hka
      simp [dictSet, dictGet, Ne.symm h]
    · simp [dictSet, hka, dictGet, ih]

theorem dictHas_set_of_has {β : Type} (d : List (String × β)) (k : String) (v : β)
    (h : dictHas d k = true) : ∀ k', dictHas (dictSet d k v) k' = dictHas d k' := by
  intro k'
  by_cases hk : k' = k
  · subst hk
    simp only [dictHas, dictGet_set_self, Option.isSome_some]
    exact h.symm
  · simp [dictHas, dictGet_set_ne d k k' v hk]

theorem dictHas_of_mem {β : Type} {d : List (String × β)} {k : String} {v : β}
    (h : (k, v) ∈ d) : dictHas d k = true := by
  induction d with
  | nil => simp at h
  | cons p rest ih =>
    obtain ⟨ka, va⟩ := p
    rcases List.mem_cons.mp h with h1 | h2
    · obtain ⟨hk, hv⟩ := Prod.mk.inj h1
      subst hk
      simp [dictHas, dictGet]
    · by_cases hk : ka = k
      · simp [dictHas, dictGet, hk]
      · simp only [dictHas, dictGet, hk, if_false]
        exact ih h2

theorem mem_of_dictGet {β : Type} {d : List (String × β)} {k : String} {v : β}
    (h : dictGet d k = some v) : (k, v) ∈ d := by
  induction d with
  | nil => simp [dictGet] at h
  | cons p rest ih =>
    obtain ⟨ka, va⟩ := p
    by_cases hk : ka = k
    · subst hk
      simp [dictGet] at h
      simp [h]
    · simp only [dictGet, hk, if_false] at h
      exact List.mem_cons_of_mem _ (ih h)

theorem dictGet_of_mem_nodup {β : Type} {d : List (String × β)} {k : String} {v : β}
    (hnd : (d.map Prod.fst).Nodup) (h : (k, v) ∈ d) : dictGet d k = some v := by
  induction d with
  | nil => simp at h
  | cons p rest ih =>
    obtain ⟨ka, va⟩ := p
    simp only [List.map_cons, List.nodup_cons] at hnd
    rcases List.mem_cons.mp h with h1 | h2
    · obtain ⟨hk, hv⟩ := Prod.mk.inj h1
      subst hk
      subst hv
      simp [dictGet]
    · have hne : ka ≠ k := by
        intro he
        subst he
        exact hnd.1 (List.mem_map.mpr ⟨(ka, v), h2, rfl⟩)
      simp only [dictGet, hne, if_false]
      exact ih hnd.2 h2

theorem dictGet_eq_none_iff {β : Type} (d : List (String × β)) (k : String) :
    dictGet d k = none ↔ k ∉ d.map Prod.fst := by
  induction d with
  | nil => simp [dictGet]
  | cons p rest ih =>
    obtain ⟨ka, va⟩ := p
    by_cases hk : ka = k
    · subst hk
      simp [dictGet]
    · simp [dictGet, hk, ih, Ne.symm hk]

theorem mem_dictSet {β : Type} {d : List (String × β)} {k : String} {v : β} {q : String × β}
    (h : q ∈ dictSet d k v) : q ∈ d ∨ q = (k, v) := by
  induction d with
  | nil => simp [dictSet] at h; simp [h]
  | cons p rest ih =>
    obtain ⟨ka, va⟩ := p
    by_cases hk : ka = k
    · subst hk
      simp only [dictSet, if_pos rfl] at h
      rcases List.mem_cons.mp h with h1 | h2
      · right; exact h1
      · left; exact List.mem_cons_of_mem _ h2
    · simp only [dictSet, hk, if_false] at h
      rcases List.mem_cons.mp h with h1 | h2
      · left; simp [h1]
      · rcases ih h2 with h3 | h3
        · left; exact List.mem_cons_of_mem _ h3
        · right; exact h3

theorem keys_dictSet_sub {β : Type} {d : List (String × β)} {k a : String} {v : β}
    (h : a ∈ (dictSet d k v).map Prod.fst) : a ∈ d.map Prod.fst ∨ a = k := by
  rcases List.mem_map.mp h with ⟨q, hq, hfst⟩
  rcases mem_dictSet hq with h1 | h1
  · left; exact hfst ▸ List.mem_map.mpr ⟨q, h1, rfl⟩
  · right; rw [h1] at hfst; exact hfst ▸ rfl

theorem dictSet_keys_nodup {β : Type} (d : List (String × β)) (k : String) (v : β)
    (hnd : (d.map Prod.fst).Nodup) : ((dictSet d k v).map Prod.fst).Nodup := by
  induction d with
  | nil => simp [dictSet]
  | cons p rest ih =>
    obtain ⟨ka, va⟩ := p
    simp only [List.map_cons, List.nodup_cons] at hnd
    by_cases hk : ka = k
    · subst hk
      show ((if ka = ka then (ka, v) :: rest else (ka, va) :: dictSet rest ka v).map Prod.fst).Nodup
      rw [if_pos rfl]
      simp only [List.map_cons, List.nodup_cons]
      exact hnd
    · simp only [dictSet, hk, if_false, List.map_cons, List.nodup_cons]
      constructor
      · intro hmem
        rcases keys_dictSet_sub hmem with h1 | h1
        · exact hnd.1 h1
        · exact hk h1
      · exact ih hnd.2

theorem insertByKey_perm {β : Type} (p : String × β) (l : List (String × β)) :
    (insertByKey p l).Perm (p :: l) := by
  induction l with
  | nil => simp [insertByKey]
  | cons q qs ih =>
    by_cases h : strLt p.1 q.1 = true
    · simp [insertByKey, h]
    · simp only [insertByKey, h, Bool.false_eq_true, if_false]
      exact (ih.cons q).trans (List.Perm.swap p q qs)

theorem sortByKey_perm {β : Type} (l : List (String × β)) : (sortByKey l).Perm l := by
  induction l with
  | nil => simp [sortByKey]
  | cons p rest ih =>
    exact (insertByKey_perm p (sortByKey rest)).trans (ih.cons p)

theorem mem_sortByKey {β : Type} (l : List (String × β)) (q : String × β) :
    q ∈ sortByKey l ↔ q ∈ l :=
  (sortByKey_perm l).mem_iff

theorem sortByKey_keys_nodup {β : Type} (l : List (String × β))
    (hnd : (l.map Prod.fst).Nodup) : ((sortByKey l).map Prod.fst).Nodup :=
  (((sortByKey_perm l).map Prod.fst).nodup_iff).mpr hnd

theorem foldl_dictSet_name_inv (l : List MField) :
    ∀ (acc : List (String × MField)),
    (∀ q ∈ acc, (q.2 : MField).name = q.1) →
    ∀ q ∈ l.foldl (fun d f => dictSet d f.name f) acc, (q.2 : MField).name = q.1 := by
  induction l with
  | nil => intro acc h; simpa using h
  | cons f rest ih =>
    intro acc h
    refine ih (dictSet acc f.name f) ?_
    intro q hq
    rcases mem_dictSet hq with h1 | h1
    · exact h q h1
    · rw [h1]

theorem fieldsByName_name_eq (m : ModelClass) :
    ∀ q ∈ fieldsByName m, (q.2 : MField).name = q.1 :=
  foldl_dictSet_name_inv m.concrete_fields [] (by simp)

theorem foldl_dictSet_keys_nodup (l : List MField) :
    ∀ (acc : List (String × MField)), (acc.map Prod.fst).Nodup →
    ((l.foldl (fun d f => dictSet d f.name f) acc).map Prod.fst).Nodup := by
  induction l with
  | nil => intro acc h; simpa using h
  | cons f rest ih =>
    intro acc h
    exact ih (dictSet acc f.name f) (dictSet_keys_nodup acc f.name f h)

theorem fieldsByName_keys_nodup (m : ModelClass) :
    ((fieldsByName m).map Prod.fst).Nodup :=
  foldl_dictSet_keys_nodup m.concrete_fields [] (by simp)

theorem foldl_dictSet_get_of_not_mem (l : List MField) :
    ∀ (acc : List (String × MField)) (k : String), k ∉ l.map MField.name →
    dictGet (l.foldl (fun d f => dictSet d f.name f) acc) k = dictGet acc k := by
  induction l with
  | nil => intro acc k _; rfl
  | cons f rest ih =>
    intro acc k hk
    simp only [List.map_cons, List.mem_cons, not_or] at hk
    rw [List.foldl_cons, ih (dictSet acc f.name f) k hk.2,
      dictGet_set_ne acc f.name k f hk.1]

theorem fieldsByName_get (m : ModelClass)
    (hnd : (m.concrete_fields.map MField.name).Nodup) :
    ∀ f ∈ m.concrete_fields, dictGet (fieldsByName m) f.name = some f := by
  have main : ∀ (l : List MField) (acc : List (String × MField)),
      (l.map MField.name).Nodup → ∀ f ∈ l,
      dictGet (l.foldl (fun d g => dictSet d g.name g) acc) f.name = some f := by
    intro l
    induction l with
    | nil => intro acc _ f hf; simp at hf
    | cons g rest ih =>
      intro acc hn f hf
      simp only [List.map_cons, List.nodup_cons] at hn
      rcases List.mem_cons.mp hf with h1 | h2
      · subst h1
        rw [List.foldl_cons, foldl_dictSet_get_of_not_mem rest _ f.name hn.1,
          dictGet_set_self]
      · exact ih (dictSet acc g.name g) hn.2 f h2
  exact main m.concrete_fields [] hnd

theorem resolveInfers_log_mem {φ : Type} (fieldF : φ → PyVal) (fbn : List (String × φ)) :
    ∀ (iter : List (String × PyVal)) (fs : List (String × PyVal)) (q : String × φ),
    (∀ p ∈ iter, p.2 = PyVal.inferSent → (dictGet fbn p.1).isSome = true) →
    (iter.map Prod.fst).Nodup →
    (q ∈ (resolveInfers fieldF fbn iter fs).2 ↔
      ((q.1, PyVal.inferSent) ∈ iter ∧ dictGet fbn q.1 = some q.2)) := by
  intro iter
  induction iter with
  | nil => intro fs q _ _; simp [resolveInfers]
  | cons p rest ih =>
    intro fs q h hnd
    obtain ⟨name, v⟩ := p
    simp only [List.map_cons, List.nodup_cons] at hnd
    by_cases hv : v = PyVal.inferSent
    · subst hv
      have hsome : (dictGet fbn name).isSome = true :=
        h (name, PyVal.inferSent) (List.mem_cons_self _ _) rfl
      obtain ⟨f, hfval⟩ := Option.isSome_iff_exists.mp hsome
      have h2 : (resolveInfers fieldF fbn ((name, PyVal.inferSent) :: rest) fs).2 =
          (name, f) ::
            (resolveInfers fieldF fbn rest (dictSet fs name (fieldF f))).2 := by
        simp [resolveInfers, hfval]
      rw [h2]
      have ihr := ih (dictSet fs name (fieldF f)) q
        (fun p hp hinf => h p (List.mem_cons_of_mem _ hp) hinf) hnd.2
      constructor
      · intro hq
        rcases List.mem_cons.mp hq with h1 | h1
        · obtain ⟨hk, hfv⟩ := Prod.mk.inj h1
          subst hk
          subst hfv
          exact ⟨List.mem_cons_self _ _, hfval⟩
        · obtain ⟨hmem, hget⟩ := ihr.mp h1
          exact ⟨List.mem_cons_of_mem _ hmem, hget⟩
      · rintro ⟨hmem, hget⟩
        rcases List.mem_cons.mp hmem with h1 | h1
        · obtain ⟨hk, _⟩ := Prod.mk.inj h1
          subst hk
          rw [hfval] at hget
          have hq2 : f = q.2 := by injection hget
          have heq : q = (q.1, f) := by rw [hq2]
          exact List.mem_cons.mpr (Or.inl heq)
        · exact List.mem_cons.mpr (Or.inr (ihr.mpr ⟨h1, hget⟩))
    · have h2 : resolveInfers fieldF fbn ((name, v) :: rest) fs =
          resolveInfers fieldF fbn rest fs := by
        simp [resolveInfers, hv]
      rw [h2]
      have ihr := ih fs q (fun p hp hinf => h p (List.mem_cons_of_mem _ hp) hinf) hnd.2
      rw [ihr]
      constructor
      · rintro ⟨hmem, hget⟩
        exact ⟨List.mem_cons_of_mem _ hmem, hget⟩
      · rintro ⟨hmem, hget⟩
        rcases List.mem_cons.mp hmem with h1 | h1
        · obtain ⟨_, hfv⟩ := Prod.mk.inj h1
          exact absurd hfv.symm hv
        · exact ⟨h1, hget⟩

theorem resolveInfers_ok_has {φ : Type} (fieldF : φ → PyVal) (fbn : List (String × φ)) :
    ∀ (iter : List (String × PyVal)) (fs : List (String × PyVal)),
    (∀ p ∈ iter, p.2 = PyVal.inferSent → (dictGet fbn p.1).isSome = true) →
    (∀ p ∈ iter, p.2 = PyVal.inferSent → dictHas fs p.1 = true) →
    ∃ d, (resolveInfers fieldF fbn iter fs).1 = .ok d ∧
      ∀ k, dictHas d k = dictHas fs k := by
  intro iter
  induction iter with
  | nil => intro fs _ _; exact ⟨fs, rfl, fun _ => rfl⟩
  | cons p rest ih =>
    intro fs h hhas
    obtain ⟨name, v⟩ := p
    by_cases hv : v = PyVal.inferSent
    · subst hv
      have hsome : (dictGet fbn name).isSome = true :=
        h (name, PyVal.inferSent) (List.mem_cons_self _ _) rfl
      obtain ⟨f, hfval⟩ := Option.isSome_iff_exists.mp hsome
      have hfs : dictHas fs name = true :=
        hhas (name, PyVal.inferSent) (List.mem_cons_self _ _) rfl
      have hpres := dictHas_set_of_has fs name (fieldF f) hfs
      obtain ⟨d, hd, hhask⟩ := ih (dictSet fs name (fieldF f))
        (fun p hp hinf => h p (List.mem_cons_of_mem _ hp) hinf)
        (fun p hp hinf => (hpres p.1).trans (hhas p (List.mem_cons_of_mem _ hp) hinf))
      refine ⟨d, ?_, fun k => (hhask k).trans (hpres k)⟩
      simp [resolveInfers, hfval, hd]
    · have h2 : resolveInfers fieldF fbn ((name, v) :: rest) fs =
          resolveInfers fieldF fbn rest fs := by
        simp [resolveInfers, hv]
      rw [h2]
      exact ih fs (fun p hp hinf => h p (List.mem_cons_of_mem _ hp) hinf)
        (fun p hp hinf => hhas p (List.mem_cons_of_mem _ hp) hinf)

theorem resolveInfers_no_infer {φ : Type} (fieldF : φ → PyVal) (fbn : List (String × φ)) :
    ∀ (iter : List (String × PyVal)) (fs : List (String × PyVal)),
    (∀ p ∈ iter, p.2 ≠ PyVal.inferSent) →
    resolveInfers fieldF fbn iter fs = (.ok fs, []) := by
  intro iter
  induction iter with
  | nil => intro fs _; rfl
  | cons p rest ih =>
    intro fs h
    obtain ⟨name, v⟩ := p
    have hv : v ≠ PyVal.inferSent := h (name, v) (List.mem_cons_self _ _)
    have h2 : resolveInfers fieldF fbn ((name, v) :: rest) fs =
        resolveInfers fieldF fbn rest fs := by
      simp [resolveInfers, hv]
    rw [h2]
    exact ih fs (fun p hp => h p (List.mem_cons_of_mem _ hp))

theorem inferMissing_log {φ : Type} (fieldF : φ → PyVal) (eligible : φ → Bool) :
    ∀ (iter : List (String × φ)) (fs : List (String × PyVal)),
    (iter.map Prod.fst).Nodup →
    (inferMissing fieldF eligible iter fs).2 =
      iter.filter (fun p => !dictHas fs p.1 && eligible p.2) := by
  intro iter
  induction iter with
  | nil => intro fs _; simp [inferMissing]
  | cons p rest ih =>
    intro fs hnd
    obtain ⟨name, f⟩ := p
    simp only [List.map_cons, List.nodup_cons] at hnd
    by_cases hc : (!dictHas fs name && eligible f) = true
    · have h2 : (inferMissing fieldF eligible ((name, f) :: rest) fs).2 =
          (name, f) ::
            (inferMissing fieldF eligible rest (dictSet fs name (fieldF f))).2 := by
        simp [inferMissing, hc]
      rw [h2, ih (dictSet fs name (fieldF f)) hnd.2]
      have hfil : List.filter (fun p => !dictHas fs p.1 && eligible p.2) ((name, f) :: rest) =
          (name, f) :: List.filter (fun p => !dictHas fs p.1 && eligible p.2) rest := by
        simp [List.filter_cons, hc]
      rw [hfil]
      congr 1
      apply List.filter_congr
      intro q hq
      have hne : q.1 ≠ name := by
        intro he
        exact hnd.1 (he ▸ List.mem_map.mpr ⟨q, hq, rfl⟩)
      simp only [dictHas, dictGet_set_ne fs name q.1 (fieldF f) hne]
    · have h2 : (inferMissing fieldF eligible ((name, f) :: rest) fs).2 =
          (inferMissing fieldF eligible rest fs).2 := by
        simp [inferMissing, hc]
      rw [h2, ih fs hnd.2]
      have hfil : List.filter (fun p => !dictHas fs p.1 && eligible p.2) ((name, f) :: rest) =
          List.filter (fun p => !dictHas fs p.1 && eligible p.2) rest := by
        simp [List.filter_cons, hc]
      rw [hfil]

theorem inferMissing_dict_get {φ : Type} (fieldF : φ → PyVal) (eligible : φ → Bool) :
    ∀ (iter : List (String × φ)) (fs : List (String × PyVal)) (k : String),
    k ∉ iter.map Prod.fst →
    dictGet (inferMissing fieldF eligible iter fs).1 k = dictGet fs k := by
  intro iter
  induction iter with
  | nil => intro fs k _; rfl
  | cons p rest ih =>
    intro fs k hk
    obtain ⟨name, f⟩ := p
    simp only [List.map_cons, List.mem_cons, not_or] at hk
    by_cases hc : (!dictHas fs name && eligible f) = true
    · have h2 : (inferMissing fieldF eligible ((name, f) :: rest) fs).1 =
          (inferMissing fieldF eligible rest (dictSet fs name (fieldF f))).1 := by
        simp [inferMissing, hc]
      rw [h2, ih (dictSet fs name (fieldF f)) k hk.2,
        dictGet_set_ne fs name k (fieldF f) hk.1]
    · have h2 : (inferMissing fieldF eligible ((name, f) :: rest) fs).1 =
          (inferMissing fieldF eligible rest fs).1 := by
        simp [inferMissing, hc]
      rw [h2, ih fs k hk.2]

theorem pkSearch_eq_find (m : ModelClass) (full : List (String × PyVal)) :
    ∀ (d : List (String × PyVal)), (∀ p ∈ d, (getField m p.1).isSome = true) →
    pkSearch (fieldsByName m) full d =
      (match d.find? (fun p => isPkField m p.1) with
       | some p => .ok (.updateOrCreate p.1 p.2 (dictPop full p.1))
       | none => .ok (.getOrCreate full)) := by
  intro d
  induction d with
  | nil => intro _; rfl
  | cons p rest ih =>
    intro h
    obtain ⟨k, v⟩ := p
    have hk : (getField m k).isSome = true := h (k, v) (List.mem_cons_self _ _)
    obtain ⟨f, hf⟩ := Option.isSome_iff_exists.mp hk
    have hget : dictGet (fieldsByName m) k = some f := hf
    by_cases hpk : f.primary_key = true
    · have hfind : ((k, v) :: rest).find? (fun p => isPkField m p.1) = some (k, v) := by
        rw [List.find?_cons_of_pos]
        simp [isPkField, hf, hpk]
      rw [hfind]
      simp [pkSearch, hget, hpk]
    · have hfind : ((k, v) :: rest).find? (fun p => isPkField m p.1) =
          rest.find? (fun p => isPkField m p.1) := by
        rw [List.find?_cons_of_neg]
        simp [isPkField, hf, hpk]
      rw [hfind]
      have h2 : pkSearch (fieldsByName m) full ((k, v) :: rest) =
          pkSearch (fieldsByName m) full rest := by
        simp [pkSearch, hget, hpk]
      rw [h2]
      exact ih (fun q hq => h q (List.mem_cons_of_mem _ hq))

/-- C2: once the field strategies are resolved (dict `d`), `from_model`
walks the supplied strategies and branches on the primary key: if some
entry's field is the model's primary key (the first such entry in dict
order; a Django model has exactly one primary key), the built strategy is
update-or-create keyed on that entry with all remaining entries as
`defaults`; if no entry's field is a primary key, the built strategy is
get-or-create over all supplied entries. -/
theorem C2_primary_key_branch (m : ModelClass) (fs d : List (String × PyVal))
    (hm : m.is_model_subclass = true)
    (hres : (resolvedFieldStrategies m fs).1 = .ok d)
    (hvalid : ∀ p ∈ d, (getField m p.1).isSome = true) :
    from_model_result m fs =
      (match d.find? (fun p => isPkField m p.1) with
       | some p => .ok (.updateOrCreate p.1 p.2 (dictPop d p.1))
       | none => .ok (.getOrCreate d)) := by
  have hrun : from_model_result m fs = pkSearch (fieldsByName m) d d := by
    rcases hq : resolvedFieldStrategies m fs with ⟨r, log⟩
    rw [hq] at hres
    simp only at hres
    cases r with
    | error e => simp at hres
    | ok fs2 =>
      simp only [Except.ok.injEq] at hres
      subst hres
      simp [from_model_result, from_model_run, hm, hq]
  rw [hrun]
  exact pkSearch_eq_find m d d hvalid

/-- Witness for C2, primary-key branch: a model whose `id` field is the
primary key, with an explicit strategy supplied for `id`; the remaining
inferred strategy (for the required field `x`) lands in `defaults`. -/
theorem C2_primary_key_branch_witness :
    from_model_result
      { is_model_subclass := true,
        concrete_fields :=
          [{ name := "id", auto_created := true, has_default := false, primary_key := true },
           { name := "x", auto_created := false, has_default := false, primary_key := false },
           { name := "y", auto_created := false, has_default := true, primary_key := false }] }
      [("id", PyVal.strat (.userStrat 5))] =
      .ok (.updateOrCreate "id" (PyVal.strat (.userStrat 5))
        [("x", PyVal.strat (.fromField
          { name := "x", auto_created := false, has_default := false, primary_key := false }))]) := by
  have h := C2_primary_key_branch
    { is_model_subclass := true,
      concrete_fields :=
        [{ name := "id", auto_created := true, has_default := false, primary_key := true },
         { name := "x", auto_created := false, has_default := false, primary_key := false },
         { name := "y", auto_created := false, has_default := true, primary_key := false }] }
    [("id", PyVal.strat (.userStrat 5))]
    [("id", PyVal.strat (.userStrat 5)),
     ("x", PyVal.strat (.fromField
       { name := "x", auto_created := false, has_default := false, primary_key := false }))]
    rfl (by decide) (by decide)
  exact h

/-- C5: a non-`Model` first argument makes `from_model` raise
`InvalidArgument` at once - before any strategy is built, with no
`from_field` call (empty log) and no retry; likewise a non-`BaseForm`
first argument makes `from_form` raise `InvalidArgument` at once. -/
theorem C5_invalid_argument (m : ModelClass) (fs : List (String × PyVal))
    (form : FormClass) (kwargs : List (String × PyVal))
    (hm : m.is_model_subclass = false)
    (hf : form.is_form_subclass = false) :
    from_model_run m fs = (.error .invalidArgument, []) ∧
    from_form_run form kwargs = (.error .invalidArgument, []) := by
  constructor
  · simp [from_model_run, hm]
  · simp [from_form_run, hf]

/-- Witness for C5 at a concrete non-model and non-form argument. -/
theorem C5_invalid_argument_witness :
    from_model_run { is_model_subclass := false, concrete_fields := [] } [] =
      (.error .invalidArgument, []) ∧
    from_form_run { is_form_subclass := false, fields := fun _ => [] } [] =
      (.error .invalidArgument, []) :=
  C5_invalid_argument { is_model_subclass := false, concrete_fields := [] } []
    { is_form_subclass := false, fields := fun _ => [] } [] rfl rfl

/-- C7: `from_model` and `from_form` own no state between calls: the
result of a call does not depend on the module state, the module state is
returned unchanged, and running any earlier call (of either function, with
any arguments) does not change what a later call returns. -/
theorem C7_no_shared_state (σ σ' : ModuleState) (m m' : ModelClass)
    (fs fs' kw kw' : List (String × PyVal)) (form form' : FormClass) :
    (from_model_call σ m fs).1 = (from_model_call σ' m fs).1 ∧
    (from_model_call σ m fs).2 = σ ∧
    (from_form_call σ form kw).1 = (from_form_call σ' form kw).1 ∧
    (from_form_call σ form kw).2 = σ ∧
    (from_model_call (from_model_call σ m' fs').2 m fs).1 = (from_model_call σ m fs).1 ∧
    (from_model_call (from_form_call σ form' kw').2 m fs).1 = (from_model_call σ m fs).1 ∧
    (from_form_call (from_model_call σ m' fs').2 form kw).1 = (from_form_call σ form kw).1 ∧
    (from_form_call (from_form_call σ form' kw').2 form kw).1 = (from_form_call σ form kw).1 :=
  ⟨rfl, rfl, rfl, rfl, rfl, rfl, rfl, rfl⟩

/-- C3 as stated is false: it claims `from_field` inference happens exactly
for fields that are not named by a keyword argument, not auto-created and
without a default.  But passing the `infer` sentinel as the keyword
argument for a field makes the first loop of `from_model` apply
`from_field` to that field even though it *is* named by a keyword argument
and even when it is auto-created (a behaviour the docstring advertises for
fields with defaults).  Concretely: a model with a single auto-created
field `a` called with `a=infer`. -/
theorem C3_counterexample :
    ¬ (∀ (m : ModelClass) (fs : List (String × PyVal)) (f : MField),
        f ∈ m.concrete_fields →
        (f ∈ ((from_model_run m fs).2.map Prod.snd) ↔
          (dictHas fs f.name = false ∧ f.auto_created = false ∧
            f.has_default = false))) := by
  intro h
  have h2 := (h
    { is_model_subclass := true,
      concrete_fields :=
        [{ name := "a", auto_created := true, has_default := false, primary_key := false }] }
    [("a", PyVal.inferSent)]
    { name := "a", auto_created := true, has_default := false, primary_key := false }
    (by simp)).mp (by decide)
  exact absurd h2.2.1 (by decide)

/-- C3 amended: for a model with distinct field names, distinct keyword
names, and every `infer`-valued keyword naming a real field, `from_field`
is applied to a concrete field exactly when either (a) the field is named
by a keyword argument whose value is the `infer` sentinel, or (b) the
field is not named by any keyword argument, is not auto-created, and has
no declared default.  (The original claim omitted case (a).) -/
theorem C3_inference_condition (m : ModelClass) (fs : List (String × PyVal)) (f : MField)
    (hm : m.is_model_subclass = true)
    (hfieldnd : (m.concrete_fields.map MField.name).Nodup)
    (hfsnd : (fs.map Prod.fst).Nodup)
    (hf : f ∈ m.concrete_fields)
    (hinf : ∀ p ∈ fs, p.2 = PyVal.inferSent → (getField m p.1).isSome = true) :
    f ∈ ((from_model_run m fs).2.map Prod.snd) ↔
      (dictGet fs f.name = some PyVal.inferSent ∨
        (dictGet fs f.name = none ∧ f.auto_created = false ∧
          f.has_default = false)) := by
  have hfget : dictGet (fieldsByName m) f.name = some f := fieldsByName_get m hfieldnd f hf
  have hinfS : ∀ p ∈ sortByKey fs, p.2 = PyVal.inferSent →
      (dictGet (fieldsByName m) p.1).isSome = true := by
    intro p hp hps
    exact hinf p ((mem_sortByKey fs p).mp hp) hps
  have hndS : ((sortByKey fs).map Prod.fst).Nodup := sortByKey_keys_nodup fs hfsnd
  have hhasS : ∀ p ∈ sortByKey fs, p.2 = PyVal.inferSent → dictHas fs p.1 = true := by
    intro p hp _
    have : p ∈ fs := (mem_sortByKey fs p).mp hp
    exact dictHas_of_mem (show (p.1, p.2) ∈ fs from this)
  obtain ⟨fs1, hok1, hhas1⟩ :=
    resolveInfers_ok_has fromFieldModel (fieldsByName m) (sortByKey fs) fs hinfS hhasS
  rcases hq : resolveInfers fromFieldModel (fieldsByName m) (sortByKey fs) fs with ⟨r, log1⟩
  rw [hq] at hok1
  simp only at hok1
  subst hok1
  have hndFbnS : ((sortByKey (fieldsByName m)).map Prod.fst).Nodup :=
    sortByKey_keys_nodup (fieldsByName m) (fieldsByName_keys_nodup m)
  have hl2 := inferMissing_log fromFieldModel modelEligible
    (sortByKey (fieldsByName m)) fs1 hndFbnS
  have hrun2 : (from_model_run m fs).2 =
      log1 ++ (inferMissing fromFieldModel modelEligible
        (sortByKey (fieldsByName m)) fs1).2 := by
    simp [from_model_run, resolvedFieldStrategies, hm, hq]
  rw [hrun2, List.map_append, List.mem_append]
  have hlog1 : f ∈ log1.map Prod.snd ↔ dictGet fs f.name = some PyVal.inferSent := by
    have hchar := resolveInfers_log_mem fromFieldModel (fieldsByName m)
      (sortByKey fs) fs
    constructor
    · intro hmem
      rcases List.mem_map.mp hmem with ⟨q, hq1, hq2⟩
      have hc := hchar q hinfS hndS
      rw [hq] at hc
      simp only at hc
      obtain ⟨hin, hget⟩ := hc.mp hq1
      have hqfbn : (q.1, q.2) ∈ fieldsByName m := mem_of_dictGet hget
      have hname : (q.2 : MField).name = q.1 := fieldsByName_name_eq m (q.1, q.2) hqfbn
      have hinfs : (q.1, PyVal.inferSent) ∈ fs := (mem_sortByKey fs _).mp hin
      have : dictGet fs q.1 = some PyVal.inferSent := dictGet_of_mem_nodup hfsnd hinfs
      rw [← hq2, hname]
      exact this
    · intro hget
      have hmemfs : (f.name, PyVal.inferSent) ∈ fs := mem_of_dictGet hget
      have hmemS : (f.name, PyVal.inferSent) ∈ sortByKey fs :=
        (mem_sortByKey fs _).mpr hmemfs
      have hc := hchar (f.name, f) hinfS hndS
      rw [hq] at hc
      simp only at hc
      have hmem1 : (f.name, f) ∈ log1 := hc.mpr ⟨hmemS, hfget⟩
      exact List.mem_map.mpr ⟨(f.name, f), hmem1, rfl⟩
  have hlog2 : f ∈ ((inferMissing fromFieldModel modelEligible
      (sortByKey (fieldsByName m)) fs1).2.map Prod.snd) ↔
      (dictGet fs f.name = none ∧ f.auto_created = false ∧ f.has_default = false) := by
    rw [hl2]
    constructor
    · intro hmem
      rcases List.mem_map.mp hmem with ⟨q, hq1, hq2⟩
      obtain ⟨hqmem, hqcond⟩ := List.mem_filter.mp hq1
      have hqfbn : q ∈ fieldsByName m := (mem_sortByKey (fieldsByName m) q).mp hqmem
      have hname : (q.2 : MField).name = q.1 := fieldsByName_name_eq m q hqfbn
      rw [Bool.and_eq_true, Bool.not_eq_true'] at hqcond
      obtain ⟨hqhas, hqel⟩ := hqcond
      rw [hhas1 q.1] at hqhas
      have hqnone : dictGet fs q.1 = none := by
        rcases hx : dictGet fs q.1 with _ | v
        · rfl
        · rw [dictHas, hx] at hqhas
          simp at hqhas
      rw [modelEligible, Bool.and_eq_true, Bool.not_eq_true', Bool.not_eq_true'] at hqel
      rw [← hq2, hname]
      exact ⟨hqnone, hqel.1, hqel.2⟩
    · rintro ⟨hnone, hauto, hdef⟩
      have hffbn : (f.name, f) ∈ fieldsByName m := mem_of_dictGet hfget
      have hmemS : (f.name, f) ∈ sortByKey (fieldsByName m) :=
        (mem_sortByKey (fieldsByName m) _).mpr hffbn
      have hcond : (!dictHas fs1 (f.name, f).1 && modelEligible (f.name, f).2) = true := by
        show (!dictHas fs1 f.name && modelEligible f) = true
        rw [hhas1]
        simp [dictHas, hnone, modelEligible, hauto, hdef]
      have hmem2 : (f.name, f) ∈ List.filter
          (fun p => !dictHas fs1 p.1 && modelEligible p.2)
          (sortByKey (fieldsByName m)) :=
        List.mem_filter.mpr ⟨hmemS, hcond⟩
      exact List.mem_map.mpr ⟨(f.name, f), hmem2, rfl⟩
  rw [hlog1, hlog2]

/-- Witness for the amended C3 at a concrete model: with no keyword
arguments, the required field `x` (not auto-created, no default) is
inferred. -/
theorem C3_inference_condition_witness :
    ({ name := "x", auto_created := false, has_default := false,
       primary_key := false } : MField) ∈
      ((from_model_run
        { is_model_subclass := true,
          concrete_fields :=
            [{ name := "id", auto_created := true, has_default := false, primary_key := true },
             { name := "x", auto_created := false, has_default := false, primary_key := false },
             { name := "y", auto_created := false, has_default := true, primary_key := false }] }
        []).2.map Prod.snd) ↔
      (dictGet [] "x" = some PyVal.inferSent ∨
        (dictGet ([] : List (String × PyVal)) "x" = none ∧ false = false ∧ false = false)) := by
  have h := C3_inference_condition
    { is_model_subclass := true,
      concrete_fields :=
        [{ name := "id", auto_created := true, has_default := false, primary_key := true },
         { name := "x", auto_created := false, has_default := false, primary_key := false },
         { name := "y", auto_created := false, has_default := true, primary_key := false }] }
    []
    { name := "x", auto_created := false, has_default := false, primary_key := false }
    rfl (by decide) (by decide) (by decide) (by simp)
  exact h

theorem splitKwargs_fst (kwargs : List (String × PyVal)) :
    (splitKwargs kwargs).1 = kwargs.filter (fun p => isSearchStrategy p.2) := by
  induction kwargs with
  | nil => rfl
  | cons p rest ih =>
    obtain ⟨k, v⟩ := p
    by_cases h : isSearchStrategy v = true
    · simp [splitKwargs, h, List.filter_cons, ih]
    · simp [splitKwargs, h, List.filter_cons, ih]

theorem splitKwargs_snd (kwargs : List (String × PyVal)) :
    (splitKwargs kwargs).2 = kwargs.filter (fun p => !isSearchStrategy p.2) := by
  induction kwargs with
  | nil => rfl
  | cons p rest ih =>
    obtain ⟨k, v⟩ := p
    by_cases h : isSearchStrategy v = true
    · simp [splitKwargs, h, List.filter_cons, ih]
    · simp [splitKwargs, h, List.filter_cons, ih]

theorem strategyPartition_no_infer (kwargs : List (String × PyVal)) :
    ∀ p ∈ sortByKey (splitKwargs kwargs).1, p.2 ≠ PyVal.inferSent := by
  intro p hp he
  have hp1 : p ∈ (splitKwargs kwargs).1 := (mem_sortByKey _ p).mp hp
  rw [splitKwargs_fst] at hp1
  have hstrat := (List.mem_filter.mp hp1).2
  rw [he] at hstrat
  simp [isSearchStrategy] at hstrat

/-- C8: a keyword argument of `from_form` is treated as a field strategy
exactly when its value is a `SearchStrategy` instance (the strategy
partition is the filter of such entries and the constructor-kwarg
partition is the filter of the rest); the `infer` sentinel is not a
`SearchStrategy` instance, so it is forwarded with the constructor keyword
arguments; and the `infer`-resolution loop, which runs over the
field-strategy partition only, leaves that partition unchanged and applies
`from_field` to nothing. -/
theorem C8_kwarg_partition (kwargs : List (String × PyVal)) (fbn : List (String × FormField)) :
    (splitKwargs kwargs).1 = kwargs.filter (fun p => isSearchStrategy p.2) ∧
    (splitKwargs kwargs).2 = kwargs.filter (fun p => !isSearchStrategy p.2) ∧
    isSearchStrategy PyVal.inferSent = false ∧
    resolveInfers fromFieldForm fbn (sortByKey (splitKwargs kwargs).1)
      (splitKwargs kwargs).1 = (.ok (splitKwargs kwargs).1, []) :=
  ⟨splitKwargs_fst kwargs, splitKwargs_snd kwargs, rfl,
    resolveInfers_no_infer fromFieldForm fbn (sortByKey (splitKwargs kwargs).1)
      (splitKwargs kwargs).1 (strategyPartition_no_infer kwargs)⟩

/-- C4: for a form with distinct field names, `from_field` is applied to a
field of the instantiated form exactly when the field is not disabled and
its name is not in the field-strategy partition of the keyword arguments
(i.e. not named by an explicitly supplied strategy). -/
theorem C4_form_inference_condition (form : FormClass) (kwargs : List (String × PyVal))
    (name : String) (f : FormField)
    (hform : form.is_form_subclass = true)
    (hnd : ((form.fields (splitKwargs kwargs).2).map Prod.fst).Nodup)
    (hmem : (name, f) ∈ form.fields (splitKwargs kwargs).2) :
    ((name, f) ∈ (from_form_run form kwargs).2 ↔
      (dictHas (splitKwargs kwargs).1 name = false ∧ f.disabled = false)) := by
  have hno : resolveInfers fromFieldForm (form.fields (splitKwargs kwargs).2)
      (sortByKey (splitKwargs kwargs).1) (splitKwargs kwargs).1 =
      (.ok (splitKwargs kwargs).1, []) :=
    resolveInfers_no_infer fromFieldForm _ _ _ (strategyPartition_no_infer kwargs)
  have hrun : (from_form_run form kwargs).2 =
      (inferMissing fromFieldForm formEligible
        (sortByKey (form.fields (splitKwargs kwargs).2)) (splitKwargs kwargs).1).2 := by
    simp [from_form_run, hform, hno]
  have hndS : ((sortByKey (form.fields (splitKwargs kwargs).2)).map Prod.fst).Nodup :=
    sortByKey_keys_nodup _ hnd
  have hl2 := inferMissing_log fromFieldForm formEligible
    (sortByKey (form.fields (splitKwargs kwargs).2)) (splitKwargs kwargs).1 hndS
  rw [hrun, hl2]
  constructor
  · intro hmem2
    obtain ⟨hmemS, hcond⟩ := List.mem_filter.mp hmem2
    simp only [Bool.and_eq_true, Bool.not_eq_true'] at hcond
    refine ⟨hcond.1, ?_⟩
    have h2 := hcond.2
    simp only [formEligible, Bool.not_eq_true'] at h2
    exact h2
  · rintro ⟨hhas, hdis⟩
    refine List.mem_filter.mpr ⟨(mem_sortByKey _ _).mpr hmem, ?_⟩
    simp [formEligible, hhas, hdis]

/-- Witness for C4 at a concrete form with a required field `u` (no
supplied strategy, not disabled, hence inferred) under one non-strategy
keyword argument. -/
theorem C4_form_inference_condition_witness :
    (("u", ({ fid := 0, disabled := false } : FormField)) ∈
      (from_form_run
        { is_form_subclass := true,
          fields := fun _ => [("u", { fid := 0, disabled := false }),
                              ("v", { fid := 1, disabled := true })] }
        [("w", PyVal.otherVal 3)]).2 ↔
      (dictHas (splitKwargs [("w", PyVal.otherVal 3)]).1 "u" = false ∧ false = false)) := by
  have h := C4_form_inference_condition
    { is_form_subclass := true,
      fields := fun _ => [("u", { fid := 0, disabled := false }),
                          ("v", { fid := 1, disabled := true })] }
    [("w", PyVal.otherVal 3)] "u" { fid := 0, disabled := false }
    rfl (by decide) (by decide)
  exact h

/-- C10: every example of a `from_form` strategy is built by calling the
original form class with the dictionary of generated field values passed
as the single `data` keyword argument, followed by the non-strategy
keyword arguments of `from_form` as further constructor keyword
arguments. -/
theorem C10_form_construction {α : Type} (form : FormClass) (kwargs : List (String × PyVal))
    (desc : FormStrategyDesc) (val : String → α)
    (hok : (from_form_run form kwargs).1 = .ok desc) :
    drawFormBuilds desc val =
      { callee := form,
        ctorKwargs :=
          ("data", .dataDict (desc.field_strategies.map (fun p => (p.1, val p.1)))) ::
            ((splitKwargs kwargs).2.map (fun p => (p.1, CtorArg.plain p.2))) } := by
  by_cases hform : form.is_form_subclass = true
  · rcases hq : resolveInfers fromFieldForm (form.fields (splitKwargs kwargs).2)
        (sortByKey (splitKwargs kwargs).1) (splitKwargs kwargs).1 with ⟨r, log1⟩
    cases r with
    | error e =>
      exfalso
      simp [from_form_run, hform, hq] at hok
    | ok fs1 =>
      have h2 := hok
      simp only [from_form_run, hform, Bool.not_true, Bool.false_eq_true, not_false_eq_true,
        if_neg, hq] at h2
      rw [if_neg (by simp [hform])] at h2
      simp only [Except.ok.injEq] at h2
      subst h2
      rfl
  · exfalso
    have hfalse : form.is_form_subclass = false := by
      cases hx : form.is_form_subclass
      · rfl
      · exact absurd hx hform
    simp [from_form_run, hfalse] at hok

/-- Witness for C10 at a concrete form with one inferred field strategy
(`u`), one constructor keyword argument (`w`), and the drawn value 42. -/
theorem C10_form_construction_witness :
    drawFormBuilds
      { wraps :=
          { is_form_subclass := true,
            fields := fun _ => [("u", { fid := 0, disabled := false })] },
        form_kwargs := [("w", PyVal.otherVal 3)],
        field_strategies :=
          [("u", PyVal.strat (.fromFormField { fid := 0, disabled := false }))] }
      (fun _ => (42 : Nat)) =
      { callee :=
          { is_form_subclass := true,
            fields := fun _ => [("u", { fid := 0, disabled := false })] },
        ctorKwargs := [("data", .dataDict [("u", 42)]),
                       ("w", CtorArg.plain (PyVal.otherVal 3))] } := by
  have h := C10_form_construction
    { is_form_subclass := true,
      fields := fun _ => [("u", { fid := 0, disabled := false })] }
    [("w", PyVal.otherVal 3)]
    { wraps :=
        { is_form_subclass := true,
          fields := fun _ => [("u", { fid := 0, disabled := false })] },
      form_kwargs := [("w", PyVal.otherVal 3)],
      field_strategies :=
        [("u", PyVal.strat (.fromFormField { fid := 0, disabled := false }))] }
    (fun _ => (42 : Nat))
    (by rfl)
  exact h
